import Mathlib

/-!
Verification of the configuration-compliance engine
(`roles/iospush/library/config_compliance.py`).

The Python module is shallowly embedded below.  Pure helpers become Lean
functions; the two places where the module defers to an external engine
(the regular-expression searches and the built-in string hash) are
modelled as function parameters, so every theorem is quantified over the
behaviour of those collaborators.  Python `list.remove`, which raises
`ValueError` when the value is absent, is embedded via `Option`; a
function that can hit that path returns `Option` and `none` models the
raised exception.  In-place mutation of the template's content list (the
absent-block path aliases and retags it) is modelled by returning the
resulting template content explicitly.
-/

namespace ConfigCompliance

/-- `__COMPARE_ARG_KEEP_START` from the module. -/
def COMPARE_ARG_KEEP_START : String := "keep_block_start"

/-- `__COMPARE_ARG_KEEP_END` from the module. -/
def COMPARE_ARG_KEEP_END : String := "keep_block_end"

/-- `__COMPARE_ARG_STRICT` from the module. -/
def COMPARE_ARG_STRICT : String := "strict_order"

/-- `__LINE_DELIMITER` from the module. -/
def LINE_DELIMITER : String := "@!!@"

/-- `__EDIT_DISTANCE_THRESHOLD` from the module. -/
def EDIT_DISTANCE_THRESHOLD : Nat := 6

/-- The characters Python's `str.strip()` and the `\s` class treat as
whitespace for ASCII text: space, tab, newline, carriage return,
vertical tab and form feed. -/
def isPyWS (c : Char) : Bool :=
  c == ' ' || c == '\t' || c == '\n' || c == '\r' || c == '\x0b' || c == '\x0c'

/-- Python `str.strip()`: remove leading and trailing whitespace. -/
def pyStrip (s : String) : String :=
  String.mk (((s.data.dropWhile isPyWS).reverse.dropWhile isPyWS).reverse)

/-- Whether `__IS_BLOCK_LINE_REGEX` (pattern `^\s`) matches the line,
i.e. whether the line starts with a whitespace character. -/
def startsWithWS (l : String) : Bool :=
  match l.data with
  | [] => false
  | c :: _ => isPyWS c

/-- The tagging applied to residue lines in block mode:
`"{}{}{}".format(block_start, __LINE_DELIMITER, line)`. -/
def tagLine (blockStart line : String) : String :=
  blockStart ++ LINE_DELIMITER ++ line

/-- The `Block` class: a start marker, an optional end marker (`set_end`
only stores a truthy value, so the marker is never the empty string) and
the collected content lines. -/
structure Block where
  start : String
  endm : Option String
  content : List String
deriving DecidableEq, Repr

/-- `Block.get_content(add_start, add_end)`: optionally prepend the start
marker and append the end marker; `add_end` only takes effect when the
stored end marker is truthy (present and non-empty). -/
def Block.getContent (b : Block) (addStart addEnd : Bool) : List String :=
  let c := b.content
  let c := if addStart then b.start :: c else c
  if addEnd then
    match b.endm with
    | some e => if e ≠ "" then c ++ [e] else c
    | none => c
  else c

/-!
## The edit-distance gate (`levenshtein`)

The module fills a `len(s) × len(t)` matrix `d` with `d[i][0] = i`,
`d[0][j] = j` and, for `i, j ≥ 1`,
`d[i][j] = min(d[i-1][j] + 1, d[i][j-1] + 1, d[i-1][j-1] + cost)` where
`cost` compares `s[i]` with `t[j]`, returning `d[len(s)-1][len(t)-1]`.
`levCell s t i j` computes exactly the entry `d[i][j]` of that matrix;
`levRow` produces row `i+1` from row `i`.
-/

/-- Row `i+1` of the module's distance matrix, given row `i` as `prev`. -/
def levRow (s t : List Char) (i : Nat) (prev : Nat → Nat) : Nat → Nat
  | 0 => i + 1
  | j + 1 =>
    min (prev (j + 1) + 1)
      (min (levRow s t i prev j + 1)
        (prev j + (if s.getD (i + 1) ' ' = t.getD (j + 1) ' ' then 0 else 1)))

/-- Entry `d[i][j]` of the matrix built by the module's `levenshtein`. -/
def levCell (s t : List Char) : Nat → Nat → Nat
  | 0 => fun j => j
  | i + 1 => levRow s t i (levCell s t i)

/-- `levenshtein(s, t)` from the module: the early returns for equal and
empty inputs, then the bottom-right entry of the matrix. -/
def levenshtein (s t : String) : Nat :=
  if s = t then 0
  else if s.length = 0 then t.length
  else if t.length = 0 then s.length
  else levCell s.data t.data (s.length - 1) (t.length - 1)

/-- The classic character-level Levenshtein edit distance (Wagner–Fischer
recurrence), as a reference for what the spec calls the "classic"
distance: this helper computes the distance of `a :: s` against its
argument, with `prev` computing the distance of `s` against a list. -/
def levClassicAux (a : Char) (prev : List Char → Nat) : List Char → Nat
  | [] => prev [] + 1
  | b :: t =>
    min (prev t + (if a = b then 0 else 1))
      (min (levClassicAux a prev t + 1) (prev (b :: t) + 1))

/-- The classic character-level Levenshtein edit distance between two
character lists. -/
def levClassic : List Char → List Char → Nat
  | [], t => t.length
  | a :: s, t => levClassicAux a (levClassic s) t

theorem levenshtein_self (s : String) : levenshtein s s = 0 := by
  simp [levenshtein]

/-- Claim C2: the module's `levenshtein` does not compute the classic
edit distance.  Its matrix is one row and one column too small and its
cost compares `s[i]` with `t[j]` instead of `s[i-1]` with `t[j-1]`, so it
computes the distance between the two strings with their first characters
dropped: on `"a"` and `"b"` it returns `0` while the classic distance
is `1`. -/
theorem levenshtein_ignores_first_characters :
    levenshtein "a" "b" = 0 ∧ levClassic "a".data "b".data = 1 ∧
      levenshtein "ab" "cb" = 0 ∧ levClassic "ab".data "cb".data = 1 := by
  decide

/-!
## Strict-order comparison (`line_strict_check` / `block_strict_check`)

Both Python functions have identical bodies.  They copy both lists; when
the lengths agree they walk the positions in order: an equal pair is
removed (by value, first occurrence — `list.remove`) from both working
copies; an unequal pair with `levenshtein` distance above the threshold
resets both working copies to the full original lists and breaks; an
unequal pair within the threshold is simply skipped.  The loop is
embedded as recursion over the zipped position pairs, carrying the two
working copies; the original lists are carried for the reset.  The
`remove` calls here can never miss (each position removes the value it
itself contributed), so `List.erase` is an exact embedding.
-/

/-- The body of the strict-check loop: `pairs` are the remaining
positional pairs, `rl`/`rtl` the working copies, `origL`/`origT` the
original lists used by the reset-and-break branch. -/
def strictAux (origL origT : List String) :
    List (String × String) → List String → List String →
      List String × List String
  | [], rl, rtl => (rl, rtl)
  | (l, t) :: rest, rl, rtl =>
    if l = t then strictAux origL origT rest (rl.erase l) (rtl.erase l)
    else if EDIT_DISTANCE_THRESHOLD < levenshtein l t then (origL, origT)
    else strictAux origL origT rest rl rtl

/-- `line_strict_check(lines, template_lines)` from the module. -/
def line_strict_check (lines templateLines : List String) :
    List String × List String :=
  if lines.length = templateLines.length then
    strictAux lines templateLines (lines.zip templateLines) lines templateLines
  else (lines, templateLines)

/-- `block_strict_check(block_lines, template_lines)` from the module
(textually identical to `line_strict_check`). -/
def block_strict_check (blockLines templateLines : List String) :
    List String × List String :=
  if blockLines.length = templateLines.length then
    strictAux blockLines templateLines (blockLines.zip templateLines)
      blockLines templateLines
  else (blockLines, templateLines)

theorem foldl_erase_self (l : List String) :
    l.foldl (fun acc x => acc.erase x) l = [] := by
  induction l with
  | nil => rfl
  | cons x xs ih =>
    have h : (x :: xs).erase x = xs := List.erase_cons_head x xs
    simpa [List.foldl, h] using ih

theorem strictAux_zip_self (origL origT : List String) :
    ∀ (l r1 r2 : List String),
      strictAux origL origT (l.zip l) r1 r2 =
        (l.foldl (fun acc x => acc.erase x) r1,
         l.foldl (fun acc x => acc.erase x) r2) := by
  intro l
  induction l with
  | nil => intro r1 r2; rfl
  | cons x xs ih =>
    intro r1 r2
    rw [List.zip_cons_cons, List.foldl_cons, List.foldl_cons]
    simp only [strictAux, if_pos rfl]
    exact ih (r1.erase x) (r2.erase x)

theorem strictAux_abort (origL origT : List String)
    (pairs : List (String × String)) (r1 r2 : List String)
    (h : ∃ p ∈ pairs, EDIT_DISTANCE_THRESHOLD < levenshtein p.1 p.2) :
    strictAux origL origT pairs r1 r2 = (origL, origT) := by
  induction pairs generalizing r1 r2 with
  | nil => simp at h
  | cons p rest ih =>
    obtain ⟨q, hq, hqd⟩ := h
    obtain ⟨l, t⟩ := p
    rw [List.mem_cons] at hq
    by_cases hlt : l = t
    · have hrest : q ∈ rest := by
        rcases hq with rfl | hq
        · exfalso
          subst hlt
          simp [levenshtein_self, EDIT_DISTANCE_THRESHOLD] at hqd
        · exact hq
      simpa [strictAux, hlt] using ih (r1.erase l) (r2.erase l) ⟨q, hrest, hqd⟩
    · by_cases hd : EDIT_DISTANCE_THRESHOLD < levenshtein l t
      · simp [strictAux, hlt, hd]
      · have hrest : q ∈ rest := by
          rcases hq with rfl | hq
          · exact absurd hqd hd
          · exact hq
        simpa [strictAux, hlt, hd] using ih r1 r2 ⟨q, hrest, hqd⟩

/-- Claim C3 (counterexample): swapping one pair of adjacent lines whose
pairwise edit distances are well within the threshold does not keep the
residues empty — the strict loop only removes pairs that are equal at the
same position, a within-threshold unequal pair is merely skipped, so both
swapped lines stay in both residues. -/
theorem strict_check_swapped_pair_not_empty :
    line_strict_check ["aa", "ab"] ["ab", "aa"] = (["aa", "ab"], ["ab", "aa"]) ∧
      levenshtein "aa" "ab" ≤ EDIT_DISTANCE_THRESHOLD ∧
      levenshtein "ab" "aa" ≤ EDIT_DISTANCE_THRESHOLD ∧
      line_strict_check ["aa", "ab"] ["ab", "aa"] ≠ ([], []) := by
  decide

/-- Claim C3 (amended): for strict-order comparison of equal-length
lists, (1) equal lists in the same order yield empty residues; (2) a
swapped adjacent pair whose pairwise edit distances are within the
threshold is NOT matched: both swapped lines remain in both residues
(for two-element lists the full lists are returned); (3) if some
position's pair has `levenshtein` distance above the threshold, both
complete original lists are returned as the residues. -/
theorem strict_check_alignment_behavior (ls ts : List String) (a b : String) :
    (ls = ts → line_strict_check ls ts = ([], [])) ∧
      (a ≠ b → levenshtein a b ≤ EDIT_DISTANCE_THRESHOLD →
        levenshtein b a ≤ EDIT_DISTANCE_THRESHOLD →
        line_strict_check [a, b] [b, a] = ([a, b], [b, a])) ∧
      (ls.length = ts.length →
        (∃ p ∈ ls.zip ts, EDIT_DISTANCE_THRESHOLD < levenshtein p.1 p.2) →
        line_strict_check ls ts = (ls, ts)) := by
  refine ⟨?_, ?_, ?_⟩
  · intro h
    subst h
    simp [line_strict_check, strictAux_zip_self, foldl_erase_self]
  · intro hne h1 h2
    have h1' : ¬ EDIT_DISTANCE_THRESHOLD < levenshtein a b := by omega
    have h2' : ¬ EDIT_DISTANCE_THRESHOLD < levenshtein b a := by omega
    simp [line_strict_check, strictAux, hne, Ne.symm hne, h1', h2']
  · intro hlen hbad
    simp only [line_strict_check, if_pos hlen]
    exact strictAux_abort ls ts (ls.zip ts) ls ts hbad

theorem strict_check_alignment_behavior_witness :
    line_strict_check ["x"] ["x"] = ([], []) ∧
      line_strict_check ["aa", "ab"] ["ab", "aa"] = (["aa", "ab"], ["ab", "aa"]) ∧
      line_strict_check ["u"] ["uvwxyz01"] = (["u"], ["uvwxyz01"]) := by
  refine ⟨(strict_check_alignment_behavior ["x"] ["x"] "p" "q").1 rfl,
    (strict_check_alignment_behavior [] [] "aa" "ab").2.1 (by decide) (by decide)
      (by decide),
    (strict_check_alignment_behavior ["u"] ["uvwxyz01"] "p" "q").2.2 (by decide)
      ⟨("u", "uvwxyz01"), by decide, by decide⟩⟩

/-- Claim C4: strict-order comparison of lists of different lengths
returns both complete input lists unchanged as the residues, for both
`line_strict_check` and `block_strict_check`. -/
theorem strict_check_length_mismatch (ls ts : List String)
    (h : ls.length ≠ ts.length) :
    line_strict_check ls ts = (ls, ts) ∧ block_strict_check ls ts = (ls, ts) := by
  simp [line_strict_check, block_strict_check, h]

theorem strict_check_length_mismatch_witness :
    line_strict_check ["a"] [] = (["a"], []) ∧
      block_strict_check ["a"] [] = (["a"], []) :=
  strict_check_length_mismatch ["a"] [] (by decide)

/-!
## Order-insensitive comparison (`line_normal_check` / `block_normal_check`)

Both Python functions have identical bodies.  They copy both lists and
iterate over the original fragment lines; a fragment line contained in
the ORIGINAL template list (`if line in template_lines`, not in the
remaining working copy) is removed by value from both working copies via
`list.remove`, which raises `ValueError` when the value is no longer
present.  The template-side removal can indeed be reached with the value
absent (a line occurring more often in the fragment than in the
template), so the embedding is `Option`-valued: `none` models the raised
`ValueError`.
-/

/-- Python `list.remove`: remove the first occurrence, or raise
(`none`) when the value is absent. -/
def pyRemove (l : List String) (x : String) : Option (List String) :=
  if x ∈ l then some (l.erase x) else none

/-- The body of the normal-check loop: iterate over the original
fragment lines `fs`, with working copies `rl` (fragment residue) and
`rtl` (template residue); membership is tested against the original
`templateLines`. -/
def normalAux (templateLines : List String) :
    List String → List String → List String →
      Option (List String × List String)
  | [], rl, rtl => some (rl, rtl)
  | x :: rest, rl, rtl =>
    if x ∈ templateLines then
      match pyRemove rl x with
      | none => none
      | some rl' =>
        match pyRemove rtl x with
        | none => none
        | some rtl' => normalAux templateLines rest rl' rtl'
    else normalAux templateLines rest rl rtl

/-- `line_normal_check(lines, template_lines)` from the module. -/
def line_normal_check (lines templateLines : List String) :
    Option (List String × List String) :=
  normalAux templateLines lines lines templateLines

/-- `block_normal_check(block_lines, template_lines)` from the module
(textually identical to `line_normal_check`). -/
def block_normal_check (blockLines templateLines : List String) :
    Option (List String × List String) :=
  normalAux templateLines blockLines blockLines templateLines

theorem count_filter_mem (F T : List String) (v : String) :
    (F.filter (fun x => decide (x ∈ T))).count v =
      if v ∈ T then F.count v else 0 := by
  induction F with
  | nil => simp
  | cons x xs ih =>
    by_cases hx : x ∈ T
    · by_cases hv : v = x
      · subst hv
        simp [List.filter_cons, hx, List.count_cons_self, ih]
      · simp [List.filter_cons, hx, List.count_cons_of_ne hv, ih]
    · by_cases hv : v = x
      · subst hv
        simp [List.filter_cons, hx, ih]
      · simp [List.filter_cons, hx, List.count_cons_of_ne hv, ih]

theorem normalAux_spec (T : List String) (fs : List String) :
    ∀ (rl rtl : List String),
      (∀ v, (fs.filter (fun x => decide (x ∈ T))).count v ≤ rl.count v) →
      (∀ v, (fs.filter (fun x => decide (x ∈ T))).count v ≤ rtl.count v) →
      ∃ e m, normalAux T fs rl rtl = some (e, m) ∧
        (∀ v, e.count v =
          rl.count v - (fs.filter (fun x => decide (x ∈ T))).count v) ∧
        (∀ v, m.count v =
          rtl.count v - (fs.filter (fun x => decide (x ∈ T))).count v) ∧
        e.length = rl.length - (fs.filter (fun x => decide (x ∈ T))).length ∧
        m.length = rtl.length - (fs.filter (fun x => decide (x ∈ T))).length := by
  induction fs with
  | nil =>
    intro rl rtl _ _
    exact ⟨rl, rtl, rfl, by simp, by simp, by simp, by simp⟩
  | cons x rest ih =>
    intro rl rtl h1 h2
    by_cases hxT : x ∈ T
    · have hfc : (x :: rest).filter (fun y => decide (y ∈ T)) =
          x :: rest.filter (fun y => decide (y ∈ T)) := by
        simp [List.filter_cons, hxT]
      have hxrl : x ∈ rl := by
        by_contra hc
        have h0 := h1 x
        rw [hfc, List.count_cons_self, List.count_eq_zero.mpr hc] at h0
        omega
      have hxrtl : x ∈ rtl := by
        by_contra hc
        have h0 := h2 x
        rw [hfc, List.count_cons_self, List.count_eq_zero.mpr hc] at h0
        omega
      have h1' : ∀ v, (rest.filter (fun y => decide (y ∈ T))).count v ≤
          (rl.erase x).count v := by
        intro v
        by_cases hv : v = x
        · subst hv
          have h0 := h1 v
          rw [hfc, List.count_cons_self] at h0
          rw [List.count_erase_self]
          omega
        · have h0 := h1 v
          rw [hfc, List.count_cons_of_ne hv] at h0
          rw [List.count_erase_of_ne hv]
          exact h0
      have h2' : ∀ v, (rest.filter (fun y => decide (y ∈ T))).count v ≤
          (rtl.erase x).count v := by
        intro v
        by_cases hv : v = x
        · subst hv
          have h0 := h2 v
          rw [hfc, List.count_cons_self] at h0
          rw [List.count_erase_self]
          omega
        · have h0 := h2 v
          rw [hfc, List.count_cons_of_ne hv] at h0
          rw [List.count_erase_of_ne hv]
          exact h0
      obtain ⟨e, m, heq, hce, hcm, hle, hlm⟩ := ih (rl.erase x) (rtl.erase x) h1' h2'
      refine ⟨e, m, ?_, ?_, ?_, ?_, ?_⟩
      · simp only [normalAux, if_pos hxT, pyRemove, if_pos hxrl, if_pos hxrtl]
        exact heq
      · intro v
        by_cases hv : v = x
        · subst hv
          rw [hfc, List.count_cons_self]
          have h0 := hce v
          rw [List.count_erase_self] at h0
          omega
        · rw [hfc, List.count_cons_of_ne hv]
          have h0 := hce v
          rw [List.count_erase_of_ne hv] at h0
          exact h0
      · intro v
        by_cases hv : v = x
        · subst hv
          rw [hfc, List.count_cons_self]
          have h0 := hcm v
          rw [List.count_erase_self] at h0
          omega
        · rw [hfc, List.count_cons_of_ne hv]
          have h0 := hcm v
          rw [List.count_erase_of_ne hv] at h0
          exact h0
      · rw [hfc, List.length_cons]
        rw [List.length_erase_of_mem hxrl] at hle
        omega
      · rw [hfc, List.length_cons]
        rw [List.length_erase_of_mem hxrtl] at hlm
        omega
    · have hfc : (x :: rest).filter (fun y => decide (y ∈ T)) =
          rest.filter (fun y => decide (y ∈ T)) := by
        simp [List.filter_cons, hxT]
      rw [hfc] at h1 h2
      obtain ⟨e, m, heq, hce, hcm, hle, hlm⟩ := ih rl rtl h1 h2
      refine ⟨e, m, ?_, ?_, ?_, ?_, ?_⟩
      · simp only [normalAux, if_neg hxT]
        exact heq
      · intro v; rw [hfc]; exact hce v
      · intro v; rw [hfc]; exact hcm v
      · rw [hfc]; exact hle
      · rw [hfc]; exact hlm

/-- Claim C1 (counterexample): when a line occurs more often in the
fragment than in the template, the membership test (which consults the
ORIGINAL template list, not the remaining working copy) still fires
after the template residue is exhausted, so `list.remove` raises
`ValueError` (modelled as `none`) instead of returning residues. -/
theorem normal_check_raises_on_surplus_duplicate :
    line_normal_check ["a", "a"] ["a"] = none ∧
      block_normal_check ["a", "a"] ["a"] = none := by
  decide

/-- Claim C1 (amended): provided every line occurring in the template
occurs in the fragment at most as many times as in the template, the
order-insensitive comparison returns residues `(extra, missing)` with
`missing + (F ∩ T) = T` and `extra + (F ∩ T) = F` as multisets, and
`len(missing) = len(T) - |F ∩ T|` counted with multiplicity; removal is
one-for-one.  Without that proviso the comparison raises `ValueError`
(see the counterexample). -/
theorem normal_check_multiset_residues (F T : List String)
    (H : ∀ v, v ∈ T → F.count v ≤ T.count v) :
    ∃ e m, line_normal_check F T = some (e, m) ∧
      block_normal_check F T = some (e, m) ∧
      (m : Multiset String) + ((F : Multiset String) ∩ (T : Multiset String)) =
        (T : Multiset String) ∧
      (e : Multiset String) + ((F : Multiset String) ∩ (T : Multiset String)) =
        (F : Multiset String) ∧
      m.length =
        T.length - Multiset.card ((F : Multiset String) ∩ (T : Multiset String)) := by
  have h1 : ∀ v, (F.filter (fun x => decide (x ∈ T))).count v ≤ F.count v := by
    intro v
    rw [count_filter_mem]
    by_cases hv : v ∈ T <;> simp [hv]
  have h2 : ∀ v, (F.filter (fun x => decide (x ∈ T))).count v ≤ T.count v := by
    intro v
    rw [count_filter_mem]
    by_cases hv : v ∈ T
    · simpa [hv] using H v hv
    · simp [hv]
  obtain ⟨e, m, heq, hce, hcm, _, hlm⟩ := normalAux_spec T F F T h1 h2
  have hmatched : ((F.filter (fun x => decide (x ∈ T)) : List String) :
      Multiset String) = (F : Multiset String) ∩ (T : Multiset String) := by
    ext a
    rw [Multiset.count_inter]
    simp only [Multiset.coe_count]
    rw [count_filter_mem]
    by_cases ha : a ∈ T
    · rw [if_pos ha, Nat.min_eq_left (H a ha)]
    · rw [if_neg ha, List.count_eq_zero.mpr ha, Nat.min_zero]
  refine ⟨e, m, heq, heq, ?_, ?_, ?_⟩
  · ext a
    rw [Multiset.count_add, Multiset.count_inter]
    simp only [Multiset.coe_count]
    rw [hcm a, count_filter_mem]
    by_cases ha : a ∈ T
    · rw [if_pos ha, Nat.min_eq_left (H a ha)]
      have := H a ha
      omega
    · rw [if_neg ha, List.count_eq_zero.mpr ha, Nat.min_zero]
  · ext a
    rw [Multiset.count_add, Multiset.count_inter]
    simp only [Multiset.coe_count]
    rw [hce a, count_filter_mem]
    by_cases ha : a ∈ T
    · rw [if_pos ha, Nat.min_eq_left (H a ha)]
      omega
    · rw [if_neg ha, List.count_eq_zero.mpr ha, Nat.min_zero]
      omega
  · rw [← hmatched, Multiset.coe_card]
    exact hlm

theorem normal_check_multiset_residues_witness :
    (∀ v, v ∈ (["b", "c"] : List String) →
      List.count v ["a", "b"] ≤ List.count v ["b", "c"]) ∧
    ∃ e m, line_normal_check ["a", "b"] ["b", "c"] = some (e, m) ∧
      block_normal_check ["a", "b"] ["b", "c"] = some (e, m) ∧
      (m : Multiset String) +
        ((["a", "b"] : List String) : Multiset String) ∩
          ((["b", "c"] : List String) : Multiset String) =
        ((["b", "c"] : List String) : Multiset String) ∧
      (e : Multiset String) +
        ((["a", "b"] : List String) : Multiset String) ∩
          ((["b", "c"] : List String) : Multiset String) =
        ((["a", "b"] : List String) : Multiset String) ∧
      m.length = (["b", "c"] : List String).length -
        Multiset.card (((["a", "b"] : List String) : Multiset String) ∩
          ((["b", "c"] : List String) : Multiset String)) := by
  have H : ∀ v, v ∈ (["b", "c"] : List String) →
      List.count v ["a", "b"] ≤ List.count v ["b", "c"] := by
    intro v hv
    simp only [List.mem_cons, List.not_mem_nil, or_false] at hv
    rcases hv with rfl | rfl <;> decide
  exact ⟨H, normal_check_multiset_residues ["a", "b"] ["b", "c"] H⟩

/-!
## Block-mode comparison (`is_hash_equal`, `filter_ignore_lines`,
`block_check_equal`)

Two external collaborators are abstracted as parameters: `hashFn` stands
for Python's built-in `hash` on strings (any function of the joined
string — equal strings always hash equally), and `matchesFn p l` stands
for `re.compile(p).search(l)` being truthy.  Python's `sorted` on
strings is embedded as an insertion sort by the lexicographic order
(equal strings are identical, so stability is irrelevant).

`block_check_equal` aliases the template's content list in its
absent-block branch and retags it in place, so the embedding returns a
triple `(extra, missing, template content after the call)`; the
`ValueError` reachable through `block_normal_check` makes it
`Option`-valued.
-/

/-- Lexicographic comparison of code-point sequences, as Python compares
strings. -/
def charListLt : List Char → List Char → Bool
  | [], [] => false
  | [], _ :: _ => true
  | _ :: _, [] => false
  | a :: as, b :: bs =>
    if a < b then true else if b < a then false else charListLt as bs

/-- Python string comparison `a <= b` (lexicographic by code point). -/
def strLe (a b : String) : Bool := !(charListLt b.data a.data)

/-- Insert a string into an ascending list. -/
def insSorted (x : String) : List String → List String
  | [] => [x]
  | y :: ys => if strLe x y then x :: y :: ys else y :: insSorted x ys

/-- Python `sorted` on a list of strings. -/
def sortStr (l : List String) : List String := l.foldr insSorted []

/-- The line list whose join is hashed: sorted first unless strict order
is requested. -/
def hashLines (l : List String) (strictOrder : Bool) : List String :=
  if strictOrder then l else sortStr l

/-- `is_hash_equal(block_lines, template_lines, strict_order)` from the
module: join each side into one separator-less string and compare the
hashes. -/
def is_hash_equal (hashFn : String → Nat)
    (blockLines templateLines : List String) (strictOrder : Bool) : Bool :=
  hashFn (String.join (hashLines blockLines strictOrder)) ==
    hashFn (String.join (hashLines templateLines strictOrder))

/-- The accumulation loop of `filter_ignore_lines`: for each ignore
pattern, extend the collected list by the lines the pattern matches. -/
def collectMatches (matchesFn : String → String → Bool)
    (lines patterns : List String) : List String :=
  patterns.foldl (fun acc p => acc ++ lines.filter (matchesFn p)) []

/-- `filter_ignore_lines(block_lines, template_lines, ignore_lines)`
from the module: drop, on each side, the lines collected for that
side. -/
def filter_ignore_lines (matchesFn : String → String → Bool)
    (blockLines templateLines ignoreLines : List String) :
    List String × List String :=
  let fb := collectMatches matchesFn blockLines ignoreLines
  let ft := collectMatches matchesFn templateLines ignoreLines
  (blockLines.filter (fun x => decide (x ∉ fb)),
   templateLines.filter (fun x => decide (x ∉ ft)))

/-- `block_check_equal(block, template, compare_args, ignore_lines)`
from the module.  Result: `(extra, missing, template content after the
call)`; the third component records that the absent-block branch retags
the aliased template content in place, while the other branches leave it
untouched.  `Option.map` performs the final tagging of whichever residue
pair the strict or normal check produced, propagating the normal check's
possible `ValueError`. -/
def block_check_equal (hashFn : String → Nat)
    (matchesFn : String → String → Bool) (b : Block)
    (templateContent : List String) (compareArgs ignoreLines : List String) :
    Option (List String × List String × List String) :=
  if b.content = [] then
    let tagged := templateContent.map (tagLine b.start)
    some ([], tagged, tagged)
  else
    let addStart := decide (COMPARE_ARG_KEEP_START ∈ compareArgs)
    let addEnd := decide (COMPARE_ARG_KEEP_END ∈ compareArgs)
    let blockLines := b.getContent addStart addEnd
    let strictMode := decide (COMPARE_ARG_STRICT ∈ compareArgs)
    if is_hash_equal hashFn blockLines templateContent strictMode then
      some ([], [], templateContent)
    else
      let ft := filter_ignore_lines matchesFn blockLines templateContent
        ignoreLines
      let res := if strictMode then some (block_strict_check ft.1 ft.2)
        else block_normal_check ft.1 ft.2
      res.map (fun r =>
        (r.1.map (tagLine b.start), r.2.map (tagLine b.start),
          templateContent))

/-- Claim C5: an absent block (empty content) short-circuits: `extra` is
empty and `missing` is every template line tagged with the block's start
marker via the delimiter. -/
theorem absent_block_all_missing (hashFn : String → Nat)
    (matchesFn : String → String → Bool) (b : Block)
    (tc compareArgs ignoreLines : List String)
    (hb : b.content = []) (ht : tc ≠ []) :
    block_check_equal hashFn matchesFn b tc compareArgs ignoreLines =
      some ([], tc.map (tagLine b.start), tc.map (tagLine b.start)) := by
  simp [block_check_equal, hb]

theorem absent_block_all_missing_witness :
    block_check_equal String.length (fun _ _ => false)
        { start := "S", endm := none, content := [] } ["x", "y"] [] [] =
      some ([], ["S@!!@x", "S@!!@y"], ["S@!!@x", "S@!!@y"]) :=
  absent_block_all_missing String.length (fun _ _ => false)
    { start := "S", endm := none, content := [] } ["x", "y"] [] [] rfl
    (by decide)

/-- Claim C10: the digest fast path depends only on the separator-less
concatenation of the (sorted, when strict order is absent) lines: if the
joins agree, the residues are both empty, for EVERY hash function, so no
hash collision is required. -/
theorem hash_fast_path_join_equality (hashFn : String → Nat)
    (matchesFn : String → String → Bool) (b : Block)
    (tc compareArgs ignoreLines : List String) (hb : b.content ≠ [])
    (hj : String.join (hashLines
        (b.getContent (decide (COMPARE_ARG_KEEP_START ∈ compareArgs))
          (decide (COMPARE_ARG_KEEP_END ∈ compareArgs)))
        (decide (COMPARE_ARG_STRICT ∈ compareArgs))) =
      String.join (hashLines tc (decide (COMPARE_ARG_STRICT ∈ compareArgs)))) :
    block_check_equal hashFn matchesFn b tc compareArgs ignoreLines =
      some ([], [], tc) := by
  have hh : is_hash_equal hashFn
      (b.getContent (decide (COMPARE_ARG_KEEP_START ∈ compareArgs))
        (decide (COMPARE_ARG_KEEP_END ∈ compareArgs))) tc
      (decide (COMPARE_ARG_STRICT ∈ compareArgs)) = true := by
    simp [is_hash_equal, hj]
  simp [block_check_equal, hb, hh]

theorem hash_fast_path_join_equality_witness :
    block_check_equal String.length (fun _ _ => false)
        { start := "S", endm := none, content := ["ab", "c"] } ["a", "bc"] [] [] =
      some ([], [], ["a", "bc"]) ∧
      ¬ (["ab", "c"] : List String).Perm ["a", "bc"] :=
  ⟨hash_fast_path_join_equality String.length (fun _ _ => false)
      { start := "S", endm := none, content := ["ab", "c"] } ["a", "bc"] [] []
      (by decide) (by decide),
    by decide⟩

/-- Claim C8 (counterexample): the absent-block comparison retags the
Template's content sequence in place (the Python code aliases
`template.get_content()` and assigns the tagged strings back into it),
so after that comparison the template's content is the tagged line list,
not the sequence produced at construction. -/
theorem absent_block_retags_template_content :
    block_check_equal String.length (fun _ _ => false)
        { start := "S", endm := none, content := [] } ["x"] [] [] =
      some ([], ["S@!!@x"], ["S@!!@x"]) ∧
      (["S@!!@x"] : List String) ≠ ["x"] := by
  decide

/-- Claim C8 (amended): block-mode comparison with a present
(non-empty-content) block leaves the Template's content unchanged; only
the absent-block path overwrites it with the tagged missing lines. -/
theorem present_block_preserves_template_content (hashFn : String → Nat)
    (matchesFn : String → String → Bool) (b : Block)
    (tc compareArgs ignoreLines : List String) (hb : b.content ≠ [])
    (e m tc' : List String)
    (hr : block_check_equal hashFn matchesFn b tc compareArgs ignoreLines =
      some (e, m, tc')) :
    tc' = tc := by
  simp only [block_check_equal, if_neg hb] at hr
  by_cases hh : is_hash_equal hashFn
      (b.getContent (decide (COMPARE_ARG_KEEP_START ∈ compareArgs))
        (decide (COMPARE_ARG_KEEP_END ∈ compareArgs))) tc
      (decide (COMPARE_ARG_STRICT ∈ compareArgs)) = true
  · rw [if_pos hh] at hr
    simp only [Option.some.injEq, Prod.mk.injEq] at hr
    exact hr.2.2.symm
  · rw [if_neg hh] at hr
    rw [Option.map_eq_some'] at hr
    obtain ⟨r, _, hfr⟩ := hr
    simp only [Prod.mk.injEq] at hfr
    exact hfr.2.2.symm

theorem present_block_preserves_template_content_witness :
    (["x"] : List String) = ["x"] :=
  present_block_preserves_template_content String.length (fun _ _ => false)
    { start := "S", endm := none, content := ["x"] } ["x"] [] [] (by decide)
    [] [] ["x"] (by decide)

theorem strictAux_fst_mem (origL origT : List String) :
    ∀ (ps : List (String × String)) (r1 r2 : List String) (x : String),
      x ∈ (strictAux origL origT ps r1 r2).1 → x ∈ r1 ∨ x ∈ origL := by
  intro ps
  induction ps with
  | nil => intro r1 r2 x hx; exact Or.inl hx
  | cons p rest ih =>
    intro r1 r2 x hx
    obtain ⟨l, t⟩ := p
    by_cases hlt : l = t
    · rw [strictAux, if_pos hlt] at hx
      rcases ih _ _ x hx with h | h
      · exact Or.inl (List.mem_of_mem_erase h)
      · exact Or.inr h
    · by_cases hd : EDIT_DISTANCE_THRESHOLD < levenshtein l t
      · rw [strictAux, if_neg hlt, if_pos hd] at hx
        exact Or.inr hx
      · rw [strictAux, if_neg hlt, if_neg hd] at hx
        exact ih _ _ x hx

theorem strictAux_snd_mem (origL origT : List String) :
    ∀ (ps : List (String × String)) (r1 r2 : List String) (x : String),
      x ∈ (strictAux origL origT ps r1 r2).2 → x ∈ r2 ∨ x ∈ origT := by
  intro ps
  induction ps with
  | nil => intro r1 r2 x hx; exact Or.inl hx
  | cons p rest ih =>
    intro r1 r2 x hx
    obtain ⟨l, t⟩ := p
    by_cases hlt : l = t
    · rw [strictAux, if_pos hlt] at hx
      rcases ih _ _ x hx with h | h
      · exact Or.inl (List.mem_of_mem_erase h)
      · exact Or.inr h
    · by_cases hd : EDIT_DISTANCE_THRESHOLD < levenshtein l t
      · rw [strictAux, if_neg hlt, if_pos hd] at hx
        exact Or.inr hx
      · rw [strictAux, if_neg hlt, if_neg hd] at hx
        exact ih _ _ x hx

theorem block_strict_check_fst_mem (bl tl : List String) (x : String)
    (h : x ∈ (block_strict_check bl tl).1) : x ∈ bl := by
  rw [block_strict_check] at h
  by_cases hl : bl.length = tl.length
  · rw [if_pos hl] at h
    simpa using strictAux_fst_mem bl tl (bl.zip tl) bl tl x h
  · rw [if_neg hl] at h
    exact h

theorem block_strict_check_snd_mem (bl tl : List String) (x : String)
    (h : x ∈ (block_strict_check bl tl).2) : x ∈ tl := by
  rw [block_strict_check] at h
  by_cases hl : bl.length = tl.length
  · rw [if_pos hl] at h
    simpa using strictAux_snd_mem bl tl (bl.zip tl) bl tl x h
  · rw [if_neg hl] at h
    exact h

theorem normalAux_mem (T : List String) :
    ∀ (fs rl rtl e m : List String),
      normalAux T fs rl rtl = some (e, m) →
      (∀ x ∈ e, x ∈ rl) ∧ (∀ x ∈ m, x ∈ rtl) := by
  intro fs
  induction fs with
  | nil =>
    intro rl rtl e m h
    rw [normalAux] at h
    simp only [Option.some.injEq, Prod.mk.injEq] at h
    obtain ⟨rfl, rfl⟩ := h
    exact ⟨fun x hx => hx, fun x hx => hx⟩
  | cons x rest ih =>
    intro rl rtl e m h
    rw [normalAux] at h
    by_cases hxT : x ∈ T
    · rw [if_pos hxT] at h
      by_cases hxrl : x ∈ rl
      · by_cases hxrtl : x ∈ rtl
        · rw [pyRemove, if_pos hxrl, pyRemove, if_pos hxrtl] at h
          obtain ⟨h1, h2⟩ := ih _ _ _ _ h
          exact ⟨fun y hy => List.mem_of_mem_erase (h1 y hy),
            fun y hy => List.mem_of_mem_erase (h2 y hy)⟩
        · rw [pyRemove, if_pos hxrl, pyRemove, if_neg hxrtl] at h
          exact absurd h (by simp)
      · rw [pyRemove, if_neg hxrl] at h
        exact absurd h (by simp)
    · rw [if_neg hxT] at h
      exact ih _ _ _ _ h

theorem mem_foldl_append_of_mem_acc (f : String → List String) :
    ∀ (ps acc : List String) (x : String), x ∈ acc →
      x ∈ ps.foldl (fun a q => a ++ f q) acc := by
  intro ps
  induction ps with
  | nil => intro acc x hx; exact hx
  | cons q qs ih =>
    intro acc x hx
    rw [List.foldl_cons]
    exact ih _ x (List.mem_append_left _ hx)

theorem mem_collectMatches (matchesFn : String → String → Bool)
    (lines : List String) :
    ∀ (patterns acc : List String) (x : String) (p : String), p ∈ patterns →
      matchesFn p x = true → x ∈ lines →
      x ∈ patterns.foldl (fun a q => a ++ lines.filter (matchesFn q)) acc := by
  intro patterns
  induction patterns with
  | nil => intro acc x p hp; exact absurd hp (List.not_mem_nil p)
  | cons q qs ih =>
    intro acc x p hp hm hx
    rw [List.foldl_cons]
    rcases List.mem_cons.mp hp with rfl | hp'
    · exact mem_foldl_append_of_mem_acc _ qs _ x
        (List.mem_append_right acc (List.mem_filter.mpr ⟨hx, hm⟩))
    · exact ih _ x p hp' hm hx

theorem filter_ignore_no_match (matchesFn : String → String → Bool)
    (blockLines templateLines ignoreLines : List String) :
    (∀ x ∈ (filter_ignore_lines matchesFn blockLines templateLines
        ignoreLines).1, ∀ p ∈ ignoreLines, matchesFn p x = false) ∧
    (∀ x ∈ (filter_ignore_lines matchesFn blockLines templateLines
        ignoreLines).2, ∀ p ∈ ignoreLines, matchesFn p x = false) := by
  constructor
  · intro x hx p hp
    rw [filter_ignore_lines] at hx
    simp only [List.mem_filter, decide_eq_true_eq] at hx
    obtain ⟨hxl, hnm⟩ := hx
    cases hm : matchesFn p x with
    | false => rfl
    | true =>
      exact absurd (mem_collectMatches matchesFn blockLines ignoreLines [] x p
        hp hm hxl) hnm
  · intro x hx p hp
    rw [filter_ignore_lines] at hx
    simp only [List.mem_filter, decide_eq_true_eq] at hx
    obtain ⟨hxl, hnm⟩ := hx
    cases hm : matchesFn p x with
    | false => rfl
    | true =>
      exact absurd (mem_collectMatches matchesFn templateLines ignoreLines [] x
        p hp hm hxl) hnm

/-- Claim C6 (counterexample): the absent-block short-circuit runs before
ignore-line filtering, so with an absent block a template line matched by
an ignore pattern still appears (tagged) in the `missing` residue.  Here
the matcher models `re.search` of the literal pattern `"foo"`, which
matches the template line `"foo"`. -/
theorem ignored_line_in_absent_block_residue :
    block_check_equal String.length (fun p l => p == l)
        { start := "S", endm := none, content := [] } ["foo"] [] ["foo"] =
      some ([], ["S@!!@foo"], ["S@!!@foo"]) ∧
      (fun p l : String => p == l) "foo" "foo" = true := by
  decide

/-- Claim C6 (amended): for a PRESENT block (non-empty content), any
fragment or template line matched by at least one ignore pattern is
removed from both sides before line-level diffing and never appears in
either returned residue: every returned residue entry is a tagged line
that matches no ignore pattern.  (An absent block bypasses the filter —
see the counterexample.) -/
theorem ignore_filter_excludes_matches (hashFn : String → Nat)
    (matchesFn : String → String → Bool) (b : Block)
    (tc compareArgs ignoreLines : List String) (hb : b.content ≠ [])
    (e m tc' : List String)
    (hr : block_check_equal hashFn matchesFn b tc compareArgs ignoreLines =
      some (e, m, tc')) :
    (∀ x ∈ e, ∃ l, x = tagLine b.start l ∧
      ∀ p ∈ ignoreLines, matchesFn p l = false) ∧
    (∀ x ∈ m, ∃ l, x = tagLine b.start l ∧
      ∀ p ∈ ignoreLines, matchesFn p l = false) := by
  simp only [block_check_equal, if_neg hb] at hr
  by_cases hh : is_hash_equal hashFn
      (b.getContent (decide (COMPARE_ARG_KEEP_START ∈ compareArgs))
        (decide (COMPARE_ARG_KEEP_END ∈ compareArgs))) tc
      (decide (COMPARE_ARG_STRICT ∈ compareArgs)) = true
  · rw [if_pos hh] at hr
    simp only [Option.some.injEq, Prod.mk.injEq] at hr
    obtain ⟨he, hm, _⟩ := hr
    subst he hm
    exact ⟨fun x hx => absurd hx (List.not_mem_nil x),
      fun x hx => absurd hx (List.not_mem_nil x)⟩
  · rw [if_neg hh] at hr
    rw [Option.map_eq_some'] at hr
    obtain ⟨⟨rbl, rtl⟩, hres, hfr⟩ := hr
    simp only [Prod.mk.injEq] at hfr
    obtain ⟨he, hm, _⟩ := hfr
    subst he hm
    have hfil := filter_ignore_no_match matchesFn
      (b.getContent (decide (COMPARE_ARG_KEEP_START ∈ compareArgs))
        (decide (COMPARE_ARG_KEEP_END ∈ compareArgs))) tc ignoreLines
    have hmem : (∀ y ∈ rbl, y ∈ (filter_ignore_lines matchesFn
          (b.getContent (decide (COMPARE_ARG_KEEP_START ∈ compareArgs))
            (decide (COMPARE_ARG_KEEP_END ∈ compareArgs))) tc
          ignoreLines).1) ∧
        (∀ y ∈ rtl, y ∈ (filter_ignore_lines matchesFn
          (b.getContent (decide (COMPARE_ARG_KEEP_START ∈ compareArgs))
            (decide (COMPARE_ARG_KEEP_END ∈ compareArgs))) tc
          ignoreLines).2) := by
      by_cases hs : COMPARE_ARG_STRICT ∈ compareArgs
      · rw [if_pos (decide_eq_true hs)] at hres
        simp only [Option.some.injEq] at hres
        constructor
        · intro y hy
          apply block_strict_check_fst_mem
            (filter_ignore_lines matchesFn
              (b.getContent (decide (COMPARE_ARG_KEEP_START ∈ compareArgs))
                (decide (COMPARE_ARG_KEEP_END ∈ compareArgs))) tc
              ignoreLines).1
            (filter_ignore_lines matchesFn
              (b.getContent (decide (COMPARE_ARG_KEEP_START ∈ compareArgs))
                (decide (COMPARE_ARG_KEEP_END ∈ compareArgs))) tc
              ignoreLines).2 y
          rw [hres]
          exact hy
        · intro y hy
          apply block_strict_check_snd_mem
            (filter_ignore_lines matchesFn
              (b.getContent (decide (COMPARE_ARG_KEEP_START ∈ compareArgs))
                (decide (COMPARE_ARG_KEEP_END ∈ compareArgs))) tc
              ignoreLines).1
            (filter_ignore_lines matchesFn
              (b.getContent (decide (COMPARE_ARG_KEEP_START ∈ compareArgs))
                (decide (COMPARE_ARG_KEEP_END ∈ compareArgs))) tc
              ignoreLines).2 y
          rw [hres]
          exact hy
      · rw [if_neg (by simpa using hs)] at hres
        obtain ⟨h1, h2⟩ := normalAux_mem _ _ _ _ _ _ hres
        exact ⟨h1, h2⟩
    constructor
    · intro x hx
      obtain ⟨l, hl, rfl⟩ := List.mem_map.mp hx
      exact ⟨l, rfl, hfil.1 l (hmem.1 l hl)⟩
    · intro x hx
      obtain ⟨l, hl, rfl⟩ := List.mem_map.mp hx
      exact ⟨l, rfl, hfil.2 l (hmem.2 l hl)⟩

theorem ignore_filter_excludes_matches_witness :
    (∀ x ∈ (["S@!!@keep"] : List String), ∃ l, x = tagLine "S" l ∧
      ∀ p ∈ (["drop"] : List String), (fun p l : String => p == l) p l = false) ∧
    (∀ x ∈ ([] : List String), ∃ l, x = tagLine "S" l ∧
      ∀ p ∈ (["drop"] : List String), (fun p l : String => p == l) p l = false) := by
  have h := ignore_filter_excludes_matches String.length (fun p l => p == l)
    { start := "S", endm := none, content := ["keep", "drop"] } ["drop"] []
    ["drop"] (by decide) ["S@!!@keep"] [] ["drop"] (by decide)
  exact h

/-!
## Extraction (`extract_block`, `extract_lines`,
`extract_additional_lines`)

The search-start and search-end regular expressions are abstracted:
`startMatch` stands for `start_regex.match(line)` being truthy and
`endMatch se line` for `re.compile(search_end).match(line)` being
truthy.  The descending-index deletion loop is embedded literally
(`delDesc`): sort the collected indices, reverse, and delete one index
at a time.  `extract_block` indexes `config_lines[index]` after its
while loop; when the loop ran off the end of the list that access raises
`IndexError`, modelled as `none`.
-/

/-- Python `str.endswith`. -/
def strEndsWith (s u : String) : Bool := u.data.isSuffixOf s.data

/-- Python `str.startswith`. -/
def strStartsWith (s u : String) : Bool := u.data.isPrefixOf s.data

/-- Insert a number into an ascending list. -/
def insNat (x : Nat) : List Nat → List Nat
  | [] => [x]
  | y :: ys => if x ≤ y then x :: y :: ys else y :: insNat x ys

/-- Python `sorted` on a list of numbers. -/
def sortNat (l : List Nat) : List Nat := l.foldr insNat []

/-- `for index in reversed(sorted(delete_indices)): del config_lines[index]`. -/
def delDesc (l : List String) (idxs : List Nat) : List String :=
  (sortNat idxs).reverse.foldl (fun acc j => acc.eraseIdx j) l

/-- `config_lines.index(search_start)`: the index of the first exact
match, or `none` (the caught `ValueError`) when absent. -/
def pyIndex : List String → String → Option Nat
  | [], _ => none
  | y :: ys, x => if y = x then some 0 else (pyIndex ys x).map (· + 1)

/-- `is_end_of_block(line, search_end)` from the module: with no end
token, a line ends the block iff it does not start with whitespace;
otherwise also when the end regex matches it. -/
def is_end_of_block (endMatch : String → String → Bool) (se line : String) :
    Bool :=
  if se = "" then !(startsWithWS line)
  else !(startsWithWS line) || endMatch se line

/-- `extract_block(config_lines, search_start, search_end)` from the
module.  The while loop collects the lines after the start marker while
`is_end_of_block` rejects them (`takeWhile`); `add_content_line` skips
falsy raw lines and strips the rest; `set_end` stores only a truthy end
token.  When the loop stops inside the list, the stopping line is
compared against the end token (and deleted too when equal); when the
loop consumed the whole remainder, `config_lines[index]` is out of
range — `none` models the `IndexError`. -/
def extract_block (endMatch : String → String → Bool) (cfg : List String)
    (ss se : String) : Option (Block × List String) :=
  match pyIndex cfg ss with
  | none => some ({ start := ss, endm := none, content := [] }, cfg)
  | some startIdx =>
    let rest := cfg.drop (startIdx + 1)
    let body := rest.takeWhile (fun l => !(is_end_of_block endMatch se l))
    if body.length < rest.length then
      let stopLine := rest.getD body.length ""
      let matchedEnd := stopLine == se
      let deleteIndices := startIdx ::
        (List.range' (startIdx + 1) body.length) ++
        (if matchedEnd then [startIdx + 1 + body.length] else [])
      some ({ start := ss,
              endm := if matchedEnd && (se != "") then some se else none,
              content := (body.filter (fun l => l != "")).map pyStrip },
            delDesc cfg deleteIndices)
    else none

theorem takeWhile_len_le (p : String → Bool) :
    ∀ l : List String, (l.takeWhile p).length ≤ l.length := by
  intro l
  induction l with
  | nil => simp
  | cons x xs ih =>
    rw [List.takeWhile_cons]
    by_cases hp : p x = true
    · rw [if_pos hp, List.length_cons, List.length_cons]
      omega
    · rw [if_neg hp]
      simp

theorem takeWhile_all_iff (p : String → Bool) :
    ∀ l : List String,
      ((l.takeWhile p).length = l.length ↔ ∀ x ∈ l, p x = true) := by
  intro l
  induction l with
  | nil => simp
  | cons x xs ih =>
    rw [List.takeWhile_cons]
    by_cases hp : p x = true
    · rw [if_pos hp]
      simp only [List.length_cons, Nat.succ.injEq, List.mem_cons]
      constructor
      · intro h y hy
        rcases hy with rfl | hy
        · exact hp
        · exact (ih.mp h) y hy
      · intro h
        exact ih.mpr (fun y hy => h y (Or.inr hy))
    · rw [if_neg hp]
      have hle := takeWhile_len_le p xs
      constructor
      · intro h
        simp at h
      · intro h
        exact absurd (h x (List.mem_cons_self x xs)) hp

/-- Claim C9 (counterexample): with the start marker present and the
matched block extending through the very last configuration line, the
end-marker check `config_lines[index]` indexes one past the end of the
list and raises `IndexError` — `extract_block` is not total.  (The
matcher models `re.match` of the literal end token `"!"`, which matches
neither line.) -/
theorem extract_block_index_error_at_eof :
    extract_block (fun p l => l == p) ["S", " a"] "S" "!" = none := by
  decide

/-- Claim C9 (amended): `extract_block` returns a Block and the
remaining configuration without out-of-range access whenever the start
marker is absent, and, when the start marker is first found at index
`i`, exactly when some later line terminates the block scan; when every
line after the marker continues the block (the block runs through the
very last line), the end-marker check indexes past the list and raises
`IndexError`. -/
theorem extract_block_totality_characterization
    (endMatch : String → String → Bool) (cfg : List String) (ss se : String) :
    (pyIndex cfg ss = none →
      extract_block endMatch cfg ss se =
        some ({ start := ss, endm := none, content := [] }, cfg)) ∧
    (∀ i, pyIndex cfg ss = some i →
      (extract_block endMatch cfg ss se = none ↔
        ∀ l ∈ cfg.drop (i + 1), is_end_of_block endMatch se l = false)) := by
  constructor
  · intro h
    simp only [extract_block, h]
  · intro i hi
    simp only [extract_block, hi]
    have hle := takeWhile_len_le (fun l => !(is_end_of_block endMatch se l))
      (cfg.drop (i + 1))
    by_cases hc : ((cfg.drop (i + 1)).takeWhile
        (fun l => !(is_end_of_block endMatch se l))).length <
        (cfg.drop (i + 1)).length
    · rw [if_pos hc]
      apply iff_of_false
      · simp
      · intro hall
        have hall' : ∀ x ∈ cfg.drop (i + 1),
            (fun l => !(is_end_of_block endMatch se l)) x = true := by
          intro x hx
          simp [hall x hx]
        have heq := (takeWhile_all_iff
          (fun l => !(is_end_of_block endMatch se l)) (cfg.drop (i + 1))).mpr
          hall'
        omega
    · rw [if_neg hc]
      apply iff_of_true rfl
      intro x hx
      have heq : ((cfg.drop (i + 1)).takeWhile
          (fun l => !(is_end_of_block endMatch se l))).length =
          (cfg.drop (i + 1)).length := by omega
      have := (takeWhile_all_iff
        (fun l => !(is_end_of_block endMatch se l)) (cfg.drop (i + 1))).mp heq
        x hx
      simpa using this

theorem extract_block_totality_characterization_witness :
    extract_block (fun p l => l == p) ["a"] "S" "!" =
      some ({ start := "S", endm := none, content := [] }, ["a"]) ∧
      (extract_block (fun p l => l == p) ["S", " a", "!"] "S" "!" = none ↔
        ∀ l ∈ (["S", " a", "!"] : List String).drop (0 + 1),
          is_end_of_block (fun p l => l == p) "!" l = false) :=
  ⟨(extract_block_totality_characterization (fun p l => l == p) ["a"] "S"
      "!").1 (by decide),
   (extract_block_totality_characterization (fun p l => l == p)
      ["S", " a", "!"] "S" "!").2 0 (by decide)⟩

/-!
## Line-mode extraction (`extract_lines`, `extract_additional_lines`)
-/

/-- The loop of `extract_additional_lines`: walk the configuration lines
from `idx`, stripping each, appending until (and including) the first
whose STRIPPED form ends with `search_until`. -/
def ealAux (searchUntil : String) : List String → Nat → List Nat × List String
  | [], _ => ([], [])
  | l :: rest, idx =>
    let s := pyStrip l
    if strEndsWith s searchUntil then ([idx], [s])
    else
      let r := ealAux searchUntil rest (idx + 1)
      (idx :: r.1, s :: r.2)

/-- `extract_additional_lines(config_lines, start_index, search_until)`
from the module: returns the consumed indices and the collected
(stripped) lines. -/
def extract_additional_lines (cfg : List String) (startIdx : Nat)
    (searchUntil : String) : List Nat × List String :=
  ealAux searchUntil (cfg.drop startIdx) startIdx

/-- `is_block_start(current_line, next_line)` from the module; the
`None`/falsy next-line case yields `False`. -/
def is_block_start (cur next : String) : Bool :=
  if cur = "" || next = "" then false
  else !(startsWithWS cur) && startsWithWS next

/-- `extract_lines(config_lines, search_start, search_end)` from the
module: scan all positions; a line qualifies when the start regex
matches it and it is not an indented-block opener; qualifying lines are
stripped and collected, with `@`-continuation via
`extract_additional_lines`; all consumed positions are deleted at the
end by descending index. -/
def extract_lines (startMatch : String → Bool) (cfg : List String) :
    List String × List String :=
  let acc := (List.range cfg.length).foldl
    (fun (acc : List String × List Nat) i =>
      let line := cfg.getD i ""
      let blockStart := if i + 1 < cfg.length then
        is_block_start line (cfg.getD (i + 1) "") else false
      if startMatch line && !blockStart then
        let s := pyStrip line
        let found := acc.1 ++ [s]
        let del := acc.2 ++ [i]
        if strEndsWith s "@" then
          let extra := extract_additional_lines cfg (i + 1) "@"
          (found ++ extra.2, del ++ extra.1)
        else (found, del)
      else acc)
    ([], [])
  (acc.1, delDesc cfg acc.2)

/-- Claim C7 (counterexample): continuation lines are NOT appended
verbatim — `extract_additional_lines` strips each one before appending
(and tests the sentinel on the stripped form).  The raw line `"v @ "` is
collected as `"v @"`. -/
theorem continuation_lines_are_stripped :
    extract_lines (fun l => strStartsWith l "k") ["k @", "v @ "] =
      (["k @", "v @"], []) ∧
      (["k @", "v @"] : List String) ≠ ["k @", "v @ "] := by
  decide

/-- Claim C7 (amended): when a qualifying line ends with the sentinel
`@`, the subsequent configuration lines are appended STRIPPED of
leading/trailing whitespace (not verbatim), up to and including the
first whose stripped form ends with `@`, and exactly the consumed
positions are recorded for deletion. -/
theorem continuation_collects_stripped_until_sentinel
    (cfg ps rest : List String) (t u : String) (startIdx : Nat)
    (hdrop : cfg.drop startIdx = ps ++ t :: rest)
    (hps : ∀ l ∈ ps, strEndsWith (pyStrip l) u = false)
    (ht : strEndsWith (pyStrip t) u = true) :
    extract_additional_lines cfg startIdx u =
      (List.range' startIdx (ps.length + 1), ps.map pyStrip ++ [pyStrip t]) := by
  rw [extract_additional_lines, hdrop]
  clear hdrop
  revert hps
  induction ps generalizing startIdx with
  | nil =>
    intro _
    simp [ealAux, ht, List.range']
  | cons p ps ih =>
    intro hps
    have hp := hps p (List.mem_cons_self p ps)
    have hps' : ∀ l ∈ ps, strEndsWith (pyStrip l) u = false :=
      fun l hl => hps l (List.mem_cons_of_mem p hl)
    rw [List.cons_append, ealAux]
    simp only [hp, Bool.false_eq_true, if_false, ih (startIdx + 1) hps']
    simp [List.range']

theorem continuation_collects_stripped_until_sentinel_witness :
    extract_additional_lines ["x", "a", " b@ "] 1 "@" =
      ([1, 2], ["a", "b@"]) :=
  (continuation_collects_stripped_until_sentinel ["x", "a", " b@ "] ["a"] []
    " b@ " "@" 1 (by decide) (by decide) (by decide)).trans (by decide)

end ConfigCompliance
